import Mathlib

/-!
Verification development for the ForgeForm-web-demo repository.

The repository's own files are React demo applications that consume the
external `forgeform` schema-validation package: they declare schemas with
`createSchema`, embed custom sanitize/validate functions, and render the
resulting error maps.  The validation engine itself (compiler, field
validators, composite resolvers, orchestrator) is not part of the source
tree, so it is modelled here from the specification's words; the demo-side
functions (the `hobbies` custom `sanitize`, the `confirmPassword`
`customValidator`) are embedded directly from the source files.

JavaScript strings are modelled as lists of UTF-16 code units (`List Nat`);
JavaScript runtime values as the inductive `Value`.  Numbers are modelled
as integers, which covers every value the claims exercise.
-/

namespace ForgeForm

/-- A JavaScript runtime value, shallowly embedded.  `vAbsent` is
`undefined` (also a missing object property); strings are lists of UTF-16
code units; numbers are modelled as integers. -/
inductive Value where
  | vAbsent
  | vNull
  | vStr (s : List Nat)
  | vNum (n : Int)
  | vBool (b : Bool)
  | vArr (elems : List Value)
  | vObj (entries : List (String × Value))

mutual

/-- Structural equality test on values (JavaScript strict equality,
which it matches on all primitive values). -/
def beqValue : Value → Value → Bool
  | .vAbsent, .vAbsent => true
  | .vNull, .vNull => true
  | .vStr s, .vStr t => s == t
  | .vNum n, .vNum m => n == m
  | .vBool a, .vBool b => a == b
  | .vArr xs, .vArr ys => beqValueList xs ys
  | .vObj kvs, .vObj lws => beqValueEntries kvs lws
  | _, _ => false

/-- Elementwise equality test on value lists. -/
def beqValueList : List Value → List Value → Bool
  | [], [] => true
  | x :: xs, y :: ys => beqValue x y && beqValueList xs ys
  | _, _ => false

/-- Entrywise equality test on keyed value lists. -/
def beqValueEntries : List (String × Value) → List (String × Value) → Bool
  | [], [] => true
  | (k, x) :: kvs, (l, y) :: lws => k == l && beqValue x y && beqValueEntries kvs lws
  | _, _ => false

end

mutual

theorem beqValue_refl : ∀ v, beqValue v v = true
  | .vAbsent => rfl
  | .vNull => rfl
  | .vStr s => by simp [beqValue]
  | .vNum n => by simp [beqValue]
  | .vBool b => by simp [beqValue]
  | .vArr xs => by simp [beqValue, beqValueList_refl xs]
  | .vObj kvs => by simp [beqValue, beqValueEntries_refl kvs]

theorem beqValueList_refl : ∀ xs, beqValueList xs xs = true
  | [] => rfl
  | x :: xs => by simp [beqValueList, beqValue_refl x, beqValueList_refl xs]

theorem beqValueEntries_refl : ∀ kvs, beqValueEntries kvs kvs = true
  | [] => rfl
  | (k, x) :: kvs => by
    simp [beqValueEntries, beqValue_refl x, beqValueEntries_refl kvs]

end

mutual

theorem beqValue_sound : ∀ v w, beqValue v w = true → v = w
  | .vAbsent, w => by cases w <;> simp [beqValue]
  | .vNull, w => by cases w <;> simp [beqValue]
  | .vStr s, w => by cases w <;> simp [beqValue]
  | .vNum n, w => by cases w <;> simp [beqValue]
  | .vBool b, w => by cases w <;> simp [beqValue]
  | .vArr xs, w => by
    cases w <;> simp [beqValue]
    exact fun h => beqValueList_sound xs _ h
  | .vObj kvs, w => by
    cases w <;> simp [beqValue]
    exact fun h => beqValueEntries_sound kvs _ h

theorem beqValueList_sound : ∀ xs ys, beqValueList xs ys = true → xs = ys
  | [], ys => by cases ys <;> simp [beqValueList]
  | x :: xs, ys => by
    cases ys with
    | nil => simp [beqValueList]
    | cons y ys =>
      simp only [beqValueList, Bool.and_eq_true]
      intro h
      rw [beqValue_sound x y h.1, beqValueList_sound xs ys h.2]

theorem beqValueEntries_sound :
    ∀ kvs lws, beqValueEntries kvs lws = true → kvs = lws
  | [], lws => by cases lws <;> simp [beqValueEntries]
  | (k, x) :: kvs, lws => by
    cases lws with
    | nil => simp [beqValueEntries]
    | cons ly lws =>
      obtain ⟨l, y⟩ := ly
      simp only [beqValueEntries, Bool.and_eq_true, beq_iff_eq]
      intro h
      obtain ⟨⟨hk, hx⟩, hrest⟩ := h
      exact by
        rw [hk, beqValue_sound x y hx, beqValueEntries_sound kvs lws hrest]

end

instance : DecidableEq Value := fun v w =>
  if h : beqValue v w = true then isTrue (beqValue_sound v w h)
  else isFalse (fun he => h (by rw [he]; exact beqValue_refl w))

/-- Whitespace code units removed by JavaScript's `String.prototype.trim`
(the model covers tab, LF, VT, FF, CR, space, NBSP and the BOM). -/
def isWsCode (c : Nat) : Bool :=
  c == 9 || c == 10 || c == 11 || c == 12 || c == 13 || c == 32 || c == 160 || c == 65279

/-- `toLowerCase` on one code unit: ASCII A-Z maps to a-z, everything else
is unchanged. -/
def toLowerCode (c : Nat) : Nat :=
  if 65 ≤ c ∧ c ≤ 90 then c + 32 else c

/-- `toUpperCase` on one code unit: ASCII a-z maps to A-Z, everything else
is unchanged. -/
def toUpperCode (c : Nat) : Nat :=
  if 97 ≤ c ∧ c ≤ 122 then c - 32 else c

/-- Remove trailing whitespace code units. -/
def trimRight : List Nat → List Nat
  | [] => []
  | c :: cs =>
    match trimRight cs with
    | [] => if isWsCode c then [] else [c]
    | r => c :: r

/-- `String.prototype.trim`: remove leading then trailing whitespace. -/
def trimCodes (s : List Nat) : List Nat :=
  trimRight (s.dropWhile isWsCode)

/-- `String.prototype.split(',')`: split on code unit 44, keeping empty
segments (`"".split(',')` is `[""]`). -/
def splitOnComma : List Nat → List (List Nat)
  | [] => [[]]
  | c :: cs =>
    match splitOnComma cs with
    | [] => [[]]
    | seg :: rest => if c == 44 then [] :: seg :: rest else (c :: seg) :: rest

/-- Modelled from the spec: an error descriptor `{code, message}` where the
code identifies the failing rule.  Per-field message overrides are not
claim-relevant, so the model uses the code itself as the default message. -/
structure ErrorDescriptor where
  code : String
  message : String
deriving DecidableEq

/-- The default descriptor for a rule code. -/
def descr (code : String) : ErrorDescriptor := ⟨code, code⟩

/-- Modelled from the spec: the target type of a primitive field's coercion
stage (`string`-like kinds, `number`/`float`, checkbox `boolean`). -/
inductive PrimType where
  | pstring
  | pnumber
  | pboolean
deriving DecidableEq

/-- Modelled from the spec: one declared constraint of a primitive field.
The `pattern` constraint holds an arbitrary full-string predicate (the
compiled regex); `options` is select/radio/enum membership. -/
inductive Constraint where
  | minLength (n : Nat)
  | maxLength (n : Nat)
  | minVal (m : Int)
  | maxVal (m : Int)
  | pattern (p : List Nat → Bool)
  | options (opts : List (List Nat))

/-- The rule code reported when a constraint fails. -/
def constraintCode : Constraint → String
  | .minLength _ => "minLength"
  | .maxLength _ => "maxLength"
  | .minVal _ => "min"
  | .maxVal _ => "max"
  | .pattern _ => "pattern"
  | .options _ => "options"

/-- Modelled from the spec: whether a constraint holds of the sanitized,
coerced value.  Constraints of the wrong shape for the value hold
vacuously. -/
def constraintHolds (c : Constraint) (v : Value) : Bool :=
  match c, v with
  | .minLength n, .vStr s => n ≤ s.length
  | .maxLength n, .vStr s => s.length ≤ n
  | .minVal m, .vNum k => m ≤ k
  | .maxVal m, .vNum k => k ≤ m
  | .pattern p, .vStr s => p s
  | .options opts, .vStr s => opts.contains s
  | _, _ => true

/-- Modelled from the spec: the attributes of a primitive-kind FieldSchema.
`constraints` is the field's declared constraint list in declaration
order; `sanitizeFn` is the optional custom `sanitize` transform; the
custom validator receives the value and the whole record. -/
structure PrimSpec where
  ptype : PrimType
  required : Bool
  trim : Bool
  lowercase : Bool
  uppercase : Bool
  sanitizeFn : Option (Value → Value)
  constraints : List Constraint
  customVal : Option (Value → Value → Option String)

/-- Modelled from the spec: values that fail the required check
(absent and empty-string / empty-selection values). -/
def isMissing : Value → Bool
  | .vAbsent => true
  | .vNull => true
  | .vStr [] => true
  | _ => false

/-- Decimal-digit parse of a code-unit list. -/
def digitsVal (s : List Nat) : Option Nat :=
  if s ≠ [] ∧ s.all (fun c => 48 ≤ c ∧ c ≤ 57) then
    some (s.foldl (fun acc c => acc * 10 + (c - 48)) 0)
  else none

/-- Modelled from the spec: numeric parse of a string (optional leading
minus sign followed by decimal digits). -/
def parseNumCodes (s : List Nat) : Option Int :=
  match s with
  | 45 :: rest => (digitsVal rest).map (fun n => -(n : Int))
  | _ => (digitsVal s).map (fun n => (n : Int))

/-- Modelled from the spec: type coercion of the sanitized value to the
field's target type; `none` is a coercion failure (`type` error). -/
def coerce : PrimType → Value → Option Value
  | .pstring, .vStr s => some (.vStr s)
  | .pstring, _ => none
  | .pnumber, .vNum n => some (.vNum n)
  | .pnumber, .vStr s => (parseNumCodes s).map .vNum
  | .pnumber, _ => none
  | .pboolean, .vBool b => some (.vBool b)
  | .pboolean, _ => none

/-- Apply a code-unit transform to a string value, leaving any other value
unchanged. -/
def mapStrVal (g : List Nat → List Nat) : Value → Value
  | .vStr s => .vStr (g s)
  | v => v

/-- String test used by `typeof value === 'string'`. -/
def isStrVal : Value → Bool
  | .vStr _ => true
  | _ => false

/-- Modelled from the spec: sanitization stage 1 — `trim`. -/
def applyTrimStage (p : PrimSpec) (v : Value) : Value :=
  if p.trim then mapStrVal trimCodes v else v

/-- Modelled from the spec: sanitization stage 2 — the case transforms
(`lowercase` taking precedence over `uppercase`). -/
def applyCaseStage (p : PrimSpec) (v : Value) : Value :=
  if p.lowercase then mapStrVal (List.map toLowerCode) v
  else if p.uppercase then mapStrVal (List.map toUpperCode) v
  else v

/-- Modelled from the spec: sanitization stage 3 — the custom `sanitize`
transform, when declared. -/
def applyCustomStage (p : PrimSpec) (v : Value) : Value :=
  match p.sanitizeFn with
  | some g => g v
  | none => v

/-- Modelled from the spec: the full sanitization pass, in the fixed order
trim, then case transform, then custom transform. -/
def sanitizeValue (p : PrimSpec) (v : Value) : Value :=
  applyCustomStage p (applyCaseStage p (applyTrimStage p v))

/-- The string core of sanitization for the trim and case transforms, on
code units.  `sanitizeValue` applies exactly this to string values when no
custom transform is declared. -/
def sanitizeCodes (doTrim lower upper : Bool) (s : List Nat) : List Nat :=
  let t := if doTrim then trimCodes s else s
  if lower then t.map toLowerCode else if upper then t.map toUpperCode else t

/-- Modelled from the spec: the primitive-field validator pipeline.
Stages in fixed order, each able to short-circuit to a single error:
required check, sanitization, type coercion, declared constraints (first
failing one in declaration order is the reported error), then the custom
validator only if all previous stages passed.  Returns the sanitized value
together with the error list for this field (at most one entry, keyed by
the field's path). -/
def validatePrim (root : Value) (p : PrimSpec) (path : String) (v : Value) :
    Value × List (String × ErrorDescriptor) :=
  if isMissing v then
    if p.required then (v, [(path, descr "required")]) else (v, [])
  else
    let s := sanitizeValue p v
    match coerce p.ptype s with
    | none => (s, [(path, descr "type")])
    | some cv =>
      match p.constraints.find? (fun c => !(constraintHolds c cv)) with
      | some c => (cv, [(path, descr (constraintCode c))])
      | none =>
        match p.customVal with
        | none => (cv, [])
        | some g =>
          match g cv root with
          | none => (cv, [])
          | some msg => (cv, [(path, ⟨"custom", msg⟩)])

/-- Modelled from the spec: a FieldSchema — either a primitive kind or one
of the composite kinds (`object` with a nested field map, `array` with an
element schema, `union` with ordered alternatives, `tuple` with an ordered
schema sequence, `record` with a value schema).  Every composite carries
its own `required` flag. -/
inductive FieldSchema where
  | prim (p : PrimSpec)
  | object (required : Bool) (fields : List (String × FieldSchema))
  | array (required : Bool) (elementType : FieldSchema)
  | union (required : Bool) (types : List FieldSchema)
  | tuple (required : Bool) (tupleSchemas : List FieldSchema)
  | record (required : Bool) (valueSchema : FieldSchema)

/-- The `required` flag declared by a FieldSchema. -/
def requiredOf : FieldSchema → Bool
  | .prim p => p.required
  | .object r _ => r
  | .array r _ => r
  | .union r _ => r
  | .tuple r _ => r
  | .record r _ => r

/-- Outcome of the required check shared by every composite resolver. -/
def reqResult (req : Bool) (path : String) (v : Value) :
    Value × List (String × ErrorDescriptor) :=
  if req then (v, [(path, descr "required")]) else (v, [])

/-- Modelled from the spec: validate one field (of any kind) at a path,
returning the sanitized value and the path-keyed error list.  `root` is
the whole record handed to custom validators.  Composite resolution:
`object` recurses into the nested field map with dot-extended paths;
`array` validates every element at `path.<index>`; `union` succeeds on the
first alternative validating with no error, otherwise reports a single
`union` error on the field's own path; `tuple` requires the input length
to equal `tupleSchemas.length`, reporting a single `tupleLength` error on
its own path otherwise; `record` validates every entry value against the
value schema and reports a single `record` error on its own path if any
entry fails, keeping every key in the sanitized output.  Absent values
short-circuit at the required check for every kind. -/
def validateField (root : Value) : FieldSchema → String → Value →
    Value × List (String × ErrorDescriptor)
  | .prim p, path, v => validatePrim root p path v
  | .object req fields, path, v =>
    if isMissing v then reqResult req path v
    else
      match v with
      | .vObj kvs =>
        let results := fields.attach.map
          (fun nf => (nf.1.1,
            validateField root nf.1.2 (path ++ "." ++ nf.1.1)
              ((kvs.lookup nf.1.1).getD .vAbsent)))
        (.vObj (results.map (fun nr => (nr.1, nr.2.1))),
         results.flatMap (fun nr => nr.2.2))
      | _ => (v, [(path, descr "type")])
  | .array req e, path, v =>
    if isMissing v then reqResult req path v
    else
      match v with
      | .vArr xs =>
        let results := xs.enum.map
          (fun ix => validateField root e (path ++ "." ++ toString ix.1) ix.2)
        (.vArr (results.map Prod.fst), results.flatMap Prod.snd)
      | _ => (v, [(path, descr "type")])
  | .union req ts, path, v =>
    if isMissing v then reqResult req path v
    else
      match (ts.attach.map (fun t => validateField root t.1 path v)).find?
          (fun r => r.2.isEmpty) with
      | some r => (r.1, [])
      | none => (v, [(path, descr "union")])
  | .tuple req ss, path, v =>
    if isMissing v then reqResult req path v
    else
      match v with
      | .vArr xs =>
        if xs.length = ss.length then
          let results := ss.attach.enum.map
            (fun it => validateField root it.2.1 (path ++ "." ++ toString it.1)
              (xs.getD it.1 .vAbsent))
          (.vArr (results.map Prod.fst), results.flatMap Prod.snd)
        else (v, [(path, descr "tupleLength")])
      | _ => (v, [(path, descr "type")])
  | .record req vs, path, v =>
    if isMissing v then reqResult req path v
    else
      match v with
      | .vObj kvs =>
        let results := kvs.map
          (fun kx => (kx.1, validateField root vs (path ++ "." ++ kx.1) kx.2))
        (.vObj (results.map (fun kr => (kr.1, kr.2.1))),
         if results.all (fun kr => kr.2.2.isEmpty) then []
         else [(path, descr "record")])
      | _ => (v, [(path, descr "type")])
termination_by f _ _ => sizeOf f
decreasing_by
  all_goals simp_wf
  · have h1 := List.sizeOf_lt_of_mem nf.2
    have h2 : sizeOf nf.1.2 < sizeOf nf.1 := by
      obtain ⟨a, b⟩ := nf.1
      simp +arith
    omega
  · have h1 := List.sizeOf_lt_of_mem t.2
    omega
  · have h1 := List.sizeOf_lt_of_mem it.2.2
    omega

/-- Modelled from the spec: the recursive passing predicate — whether a
value passes every check of a FieldSchema, through all composite nesting.
It is path-free: it records no error codes, paths or messages, only
whether each stage succeeds.  `union` passes when some alternative passes;
`tuple` additionally requires the declared length. -/
def fieldPasses (root : Value) : FieldSchema → Value → Bool
  | .prim p, v =>
    if isMissing v then !p.required
    else
      match coerce p.ptype (sanitizeValue p v) with
      | none => false
      | some cv =>
        p.constraints.all (fun c => constraintHolds c cv) &&
        (match p.customVal with
         | none => true
         | some g => (g cv root).isNone)
  | .object req fields, v =>
    if isMissing v then !req
    else
      match v with
      | .vObj kvs =>
        fields.attach.all
          (fun nf => fieldPasses root nf.1.2 ((kvs.lookup nf.1.1).getD .vAbsent))
      | _ => false
  | .array req e, v =>
    if isMissing v then !req
    else
      match v with
      | .vArr xs => xs.all (fun x => fieldPasses root e x)
      | _ => false
  | .union req ts, v =>
    if isMissing v then !req
    else ts.attach.any (fun t => fieldPasses root t.1 v)
  | .tuple req ss, v =>
    if isMissing v then !req
    else
      match v with
      | .vArr xs =>
        (xs.length == ss.length) &&
          ss.attach.enum.all (fun it => fieldPasses root it.2.1 (xs.getD it.1 .vAbsent))
      | _ => false
  | .record req vs, v =>
    if isMissing v then !req
    else
      match v with
      | .vObj kvs => kvs.all (fun kx => fieldPasses root vs kx.2)
      | _ => false
termination_by f _ => sizeOf f
decreasing_by
  all_goals simp_wf
  · have h1 := List.sizeOf_lt_of_mem nf.2
    have h2 : sizeOf nf.1.2 < sizeOf nf.1 := by
      obtain ⟨a, b⟩ := nf.1
      simp +arith
    omega
  · have h1 := List.sizeOf_lt_of_mem t.2
    omega
  · have h1 := List.sizeOf_lt_of_mem it.2.2
    omega

/-- Modelled from the spec: a Schema is a field-name-to-FieldSchema map in
declaration order. -/
def Schema := List (String × FieldSchema)

/-- Modelled from the spec: the `validate` result — the sanitized record
and the path-keyed error map (an association list in declaration order). -/
structure ValidationResult where
  sanitizedValue : Value
  errors : List (String × ErrorDescriptor)

/-- The entry list of an object value (any other value has none). -/
def objEntries : Value → List (String × Value)
  | .vObj kvs => kvs
  | _ => []

/-- Look up a field of the candidate record; a missing key is the absent
value. -/
def getField (data : Value) (n : String) : Value :=
  ((objEntries data).lookup n).getD .vAbsent

/-- Modelled from the spec: the Orchestrator's `validate(schema, data)`.
It iterates fields in declaration order, dispatching each to its
validator, and assembles the sanitized record alongside the merged error
map.  It is a total function: ordinary invalid input only populates
`errors`, it never fails to produce a result. -/
def validate (s : Schema) (data : Value) : ValidationResult :=
  let results := s.map (fun nf => (nf.1, validateField data nf.2 nf.1 (getField data nf.1)))
  ⟨.vObj (results.map (fun nr => (nr.1, nr.2.1))),
   results.flatMap (fun nr => nr.2.2)⟩

/-- Every field of the schema (recursively) passes all its checks on the
candidate record. -/
def schemaPasses (s : Schema) (data : Value) : Bool :=
  s.all (fun nf => fieldPasses data nf.2 (getField data nf.1))

theorem forall_mem_enumFrom_snd {α : Type} (xs : List α) (k : Nat) (P : α → Prop) :
    (∀ ix ∈ xs.enumFrom k, P ix.2) ↔ (∀ x ∈ xs, P x) := by
  induction xs generalizing k with
  | nil => simp
  | cons x xs ih =>
    constructor
    · intro h
      rw [List.forall_mem_cons]
      refine ⟨h (k, x) (by simp [List.enumFrom_cons]), ?_⟩
      rw [← ih (k + 1)]
      intro ix hix
      exact h ix (by simp [List.enumFrom_cons, hix])
    · intro h ix hix
      rw [List.enumFrom_cons, List.mem_cons] at hix
      cases hix with
      | inl he => subst he; exact h x (by simp)
      | inr he =>
        exact (ih (k + 1)).mpr (fun y hy => h y (List.mem_cons_of_mem _ hy)) ix he

theorem forall_mem_enum_snd {α : Type} (xs : List α) (P : α → Prop) :
    (∀ ix ∈ xs.enum, P ix.2) ↔ (∀ x ∈ xs, P x) :=
  forall_mem_enumFrom_snd xs 0 P

/-- A value failing the required check short-circuits every field kind at
its own required check: the sanitized value is the value itself and the
only possible error is `required`. -/
theorem validateField_missing (root : Value) (f : FieldSchema) (path : String)
    (v : Value) (hm : isMissing v = true) :
    validateField root f path v =
      (v, if requiredOf f then [(path, descr "required")] else []) := by
  cases v with
  | vAbsent =>
    cases f <;>
      simp [validateField, validatePrim, isMissing, reqResult, requiredOf] <;>
      (split <;> rfl)
  | vNull =>
    cases f <;>
      simp [validateField, validatePrim, isMissing, reqResult, requiredOf] <;>
      (split <;> rfl)
  | vStr s =>
    cases s with
    | nil =>
      cases f <;>
        simp [validateField, validatePrim, isMissing, reqResult, requiredOf] <;>
        (split <;> rfl)
    | cons c cs => simp [isMissing] at hm
  | vNum n => simp [isMissing] at hm
  | vBool b => simp [isMissing] at hm
  | vArr xs => simp [isMissing] at hm
  | vObj kvs => simp [isMissing] at hm

/-- A value failing the required check passes exactly when the field is not
required. -/
theorem fieldPasses_missing (root : Value) (f : FieldSchema) (v : Value)
    (hm : isMissing v = true) : fieldPasses root f v = !requiredOf f := by
  cases v with
  | vAbsent => cases f <;> simp [fieldPasses, isMissing, requiredOf]
  | vNull => cases f <;> simp [fieldPasses, isMissing, requiredOf]
  | vStr s =>
    cases s with
    | nil => cases f <;> simp [fieldPasses, isMissing, requiredOf]
    | cons c cs => simp [isMissing] at hm
  | vNum n => simp [isMissing] at hm
  | vBool b => simp [isMissing] at hm
  | vArr xs => simp [isMissing] at hm
  | vObj kvs => simp [isMissing] at hm

theorem list_all_map {α β : Type} (l : List α) (f : α → β) (p : β → Bool) :
    (l.map f).all p = l.all (fun a => p (f a)) := by
  induction l with
  | nil => rfl
  | cons x xs ih => simp [List.all_cons, ih]

/-- The error list of a field is empty exactly when the field (recursively,
through all composite nesting) passes all its checks. -/
theorem validateField_errors_nil_iff :
    ∀ (root : Value) (f : FieldSchema) (path : String) (v : Value),
      ((validateField root f path v).2 = []) ↔ fieldPasses root f v = true
  | root, .prim p, path, v => by
    rw [validateField, fieldPasses]
    unfold validatePrim
    cases hm : isMissing v with
    | true =>
      simp only [hm]
      cases p.required <;> simp
    | false =>
      simp only [hm, Bool.false_eq_true, if_false]
      cases hc : coerce p.ptype (sanitizeValue p v) with
      | none => simp
      | some cv =>
        simp only
        cases hf : p.constraints.find? (fun c => !(constraintHolds c cv)) with
        | some c =>
          have hpc := List.find?_some hf
          have hmem := List.mem_of_find?_eq_some hf
          constructor
          · intro h; simp at h
          · intro h
            exfalso
            rw [Bool.and_eq_true, List.all_eq_true] at h
            have := h.1 c hmem
            simp_all
        | none =>
          rw [List.find?_eq_none] at hf
          have hall : p.constraints.all (fun c => constraintHolds c cv) = true := by
            rw [List.all_eq_true]
            intro c hc2
            have := hf c hc2
            simp_all
          simp only [hall, Bool.true_and]
          cases p.customVal with
          | none => simp
          | some g => cases hg : g cv root <;> simp [hg]
  | root, .object req fields, path, v => by
    cases hm : isMissing v with
    | true =>
      rw [validateField_missing root _ path v hm, fieldPasses_missing root _ v hm]
      cases req <;> simp [requiredOf]
    | false =>
      cases v with
      | vObj kvs =>
        simp only [validateField, fieldPasses, isMissing, Bool.false_eq_true,
          if_false]
        simp only [List.flatMap_eq_nil_iff, List.mem_map, List.all_eq_true,
          forall_exists_index, and_imp, forall_apply_eq_imp_iff₂]
        constructor
        · intro h nf hnf
          exact (validateField_errors_nil_iff root nf.1.2 (path ++ "." ++ nf.1.1)
            ((kvs.lookup nf.1.1).getD .vAbsent)).mp (h nf hnf)
        · intro h nf hnf
          exact (validateField_errors_nil_iff root nf.1.2 (path ++ "." ++ nf.1.1)
            ((kvs.lookup nf.1.1).getD .vAbsent)).mpr (h nf hnf)
      | vAbsent => simp [isMissing] at hm
      | vNull => simp [isMissing] at hm
      | vStr s =>
        cases s with
        | nil => simp [isMissing] at hm
        | cons c cs => simp [validateField, fieldPasses, isMissing]
      | vNum n => simp [validateField, fieldPasses, isMissing]
      | vBool b => simp [validateField, fieldPasses, isMissing]
      | vArr xs => simp [validateField, fieldPasses, isMissing]
  | root, .array req e, path, v => by
    cases hm : isMissing v with
    | true =>
      rw [validateField_missing root _ path v hm, fieldPasses_missing root _ v hm]
      cases req <;> simp [requiredOf]
    | false =>
      cases v with
      | vArr xs =>
        simp only [validateField, fieldPasses, isMissing, Bool.false_eq_true,
          if_false]
        simp only [List.flatMap_eq_nil_iff, List.mem_map, List.all_eq_true,
          forall_exists_index, and_imp, forall_apply_eq_imp_iff₂]
        rw [← forall_mem_enum_snd xs (fun x => fieldPasses root e x = true)]
        refine forall_congr' (fun ix => imp_congr_right (fun hix => ?_))
        exact validateField_errors_nil_iff root e (path ++ "." ++ toString ix.1) ix.2
      | vAbsent => simp [isMissing] at hm
      | vNull => simp [isMissing] at hm
      | vStr s =>
        cases s with
        | nil => simp [isMissing] at hm
        | cons c cs => simp [validateField, fieldPasses, isMissing]
      | vNum n => simp [validateField, fieldPasses, isMissing]
      | vBool b => simp [validateField, fieldPasses, isMissing]
      | vObj kvs => simp [validateField, fieldPasses, isMissing]
  | root, .union req ts, path, v => by
    cases hm : isMissing v with
    | true =>
      rw [validateField_missing root _ path v hm, fieldPasses_missing root _ v hm]
      cases req <;> simp [requiredOf]
    | false =>
      rw [validateField, fieldPasses]
      simp only [hm, Bool.false_eq_true, if_false]
      cases hfind : (ts.attach.map (fun t => validateField root t.1 path v)).find?
          (fun r => r.2.isEmpty) with
      | some r =>
        have hpass : ts.attach.any (fun t => fieldPasses root t.1 v) = true := by
          have hsome : ((ts.attach.map (fun t => validateField root t.1 path v)).find?
              (fun r => r.2.isEmpty)).isSome := by rw [hfind]; rfl
          rw [List.find?_isSome] at hsome
          obtain ⟨x, hx, hpx⟩ := hsome
          rw [List.mem_map] at hx
          obtain ⟨t, ht, rfl⟩ := hx
          rw [List.any_eq_true]
          refine ⟨t, ht, ?_⟩
          rw [← validateField_errors_nil_iff root t.1 path v]
          rwa [List.isEmpty_iff] at hpx
        simp [hpass]
      | none =>
        have hfail : ts.attach.any (fun t => fieldPasses root t.1 v) = false := by
          rw [Bool.eq_false_iff]
          intro hany
          rw [List.any_eq_true] at hany
          obtain ⟨t, ht, hp⟩ := hany
          rw [List.find?_eq_none] at hfind
          have := hfind (validateField root t.1 path v) (List.mem_map_of_mem _ ht)
          rw [List.isEmpty_iff] at this
          exact this ((validateField_errors_nil_iff root t.1 path v).mpr hp)
        simp [hfail]
  | root, .tuple req ss, path, v => by
    cases hm : isMissing v with
    | true =>
      rw [validateField_missing root _ path v hm, fieldPasses_missing root _ v hm]
      cases req <;> simp [requiredOf]
    | false =>
      cases v with
      | vArr xs =>
        simp only [validateField, fieldPasses, isMissing, Bool.false_eq_true,
          if_false]
        by_cases hl : xs.length = ss.length
        · simp only [hl, eq_self_iff_true, if_true, beq_self_eq_true,
            Bool.true_and]
          simp only [List.flatMap_eq_nil_iff, List.mem_map, List.all_eq_true,
            forall_exists_index, and_imp, forall_apply_eq_imp_iff₂]
          constructor
          · intro h it hit
            exact (validateField_errors_nil_iff root it.2.1
              (path ++ "." ++ toString it.1) (xs.getD it.1 .vAbsent)).mp (h it hit)
          · intro h it hit
            exact (validateField_errors_nil_iff root it.2.1
              (path ++ "." ++ toString it.1) (xs.getD it.1 .vAbsent)).mpr (h it hit)
        · have hbeq : (xs.length == ss.length) = false := by
            rw [Bool.eq_false_iff]
            intro hb
            exact hl (by simpa using hb)
          simp [hl, hbeq]
      | vAbsent => simp [isMissing] at hm
      | vNull => simp [isMissing] at hm
      | vStr s =>
        cases s with
        | nil => simp [isMissing] at hm
        | cons c cs => simp [validateField, fieldPasses, isMissing]
      | vNum n => simp [validateField, fieldPasses, isMissing]
      | vBool b => simp [validateField, fieldPasses, isMissing]
      | vObj kvs => simp [validateField, fieldPasses, isMissing]
  | root, .record req vs, path, v => by
    cases hm : isMissing v with
    | true =>
      rw [validateField_missing root _ path v hm, fieldPasses_missing root _ v hm]
      cases req <;> simp [requiredOf]
    | false =>
      cases v with
      | vObj kvs =>
        simp only [validateField, fieldPasses, isMissing, Bool.false_eq_true,
          if_false]
        have hall : (kvs.map
              (fun kx => (kx.1, validateField root vs (path ++ "." ++ kx.1) kx.2))).all
              (fun kr => kr.2.2.isEmpty) =
            kvs.all (fun kx => fieldPasses root vs kx.2) := by
          rw [list_all_map, Bool.eq_iff_iff]
          simp only [List.all_eq_true]
          constructor
          · intro h kx hkx
            have hempty := h kx hkx
            rw [List.isEmpty_iff] at hempty
            exact (validateField_errors_nil_iff root vs
              (path ++ "." ++ kx.1) kx.2).mp hempty
          · intro h kx hkx
            rw [List.isEmpty_iff]
            exact (validateField_errors_nil_iff root vs
              (path ++ "." ++ kx.1) kx.2).mpr (h kx hkx)
        rw [hall]
        cases kvs.all (fun kx => fieldPasses root vs kx.2) <;> simp
      | vAbsent => simp [isMissing] at hm
      | vNull => simp [isMissing] at hm
      | vStr s =>
        cases s with
        | nil => simp [isMissing] at hm
        | cons c cs => simp [validateField, fieldPasses, isMissing]
      | vNum n => simp [validateField, fieldPasses, isMissing]
      | vBool b => simp [validateField, fieldPasses, isMissing]
      | vArr xs => simp [validateField, fieldPasses, isMissing]
termination_by _ f _ _ => sizeOf f
decreasing_by
  all_goals simp_wf
  all_goals first
  | omega
  | (have h1 := List.sizeOf_lt_of_mem nf.2
     have h2 : sizeOf nf.1.2 < sizeOf nf.1 := by
       obtain ⟨a, b⟩ := nf.1
       simp +arith
     omega)
  | (have h1 := List.sizeOf_lt_of_mem t.2
     omega)
  | (have h1 := List.sizeOf_lt_of_mem it.2.2
     omega)


/-- C1: the `errors` map returned by `validate` is empty exactly when every
field — recursively, through all composite nesting — passed all its
checks; `validate` is a total function, so for ordinarily invalid input it
returns a result with a populated `errors` map instead of failing. -/
theorem validate_errors_empty_iff_all_pass (s : Schema) (data : Value) :
    (validate s data).errors = [] ↔ schemaPasses s data = true := by
  unfold validate schemaPasses
  simp only [List.flatMap_eq_nil_iff, List.mem_map, List.all_eq_true,
    forall_exists_index, and_imp, forall_apply_eq_imp_iff₂]
  constructor
  · intro h nf hnf
    exact (validateField_errors_nil_iff data nf.2 nf.1 (getField data nf.1)).mp (h nf hnf)
  · intro h nf hnf
    exact (validateField_errors_nil_iff data nf.2 nf.1 (getField data nf.1)).mpr (h nf hnf)

/-- C6: for a primitive field whose value is present, the sanitized value
returned alongside any error is always the result of the sanitization
stages (trim, then case transform, then custom transform — the composition
`sanitizeValue`) followed by the attempted coercion: sanitization is
applied even when the field ends up with a validation error.  Moreover the
sanitized record returned by `validate` contains an entry for every schema
field, valid or not. -/
theorem sanitized_even_on_error :
    (∀ (root : Value) (p : PrimSpec) (path : String) (v : Value),
       isMissing v = false →
       (validateField root (.prim p) path v).1 =
         (coerce p.ptype
           (applyCustomStage p (applyCaseStage p (applyTrimStage p v)))).getD
           (applyCustomStage p (applyCaseStage p (applyTrimStage p v)))) ∧
    (∀ (s : Schema) (data : Value),
       (validate s data).sanitizedValue =
         .vObj (s.map (fun nf =>
           (nf.1, (validateField data nf.2 nf.1 (getField data nf.1)).1)))) := by
  constructor
  · intro root p path v hm
    rw [validateField]
    unfold validatePrim
    rw [show applyCustomStage p (applyCaseStage p (applyTrimStage p v)) =
      sanitizeValue p v from rfl]
    simp only [hm, Bool.false_eq_true, if_false]
    cases hc : coerce p.ptype (sanitizeValue p v) with
    | none => simp
    | some cv =>
      simp only [Option.getD_some]
      cases hf : p.constraints.find? (fun c => !(constraintHolds c cv)) with
      | some c => simp
      | none =>
        cases p.customVal with
        | none => simp
        | some g => cases hg : g cv root <;> simp [hg]
  · intro s data
    unfold validate
    simp [List.map_map]

/-- C2: a primitive field reports at most one error, and whenever the
pipeline reaches the constraint stage (the value is present and coercion
succeeded) with at least one failing declared constraint, the single
reported error sits at the field's path and carries the code of the first
failing constraint in declaration order (`List.find?` over the declared
list). -/
theorem prim_single_error_first_failing_constraint :
    (∀ (root : Value) (p : PrimSpec) (path : String) (v : Value),
       ((validateField root (.prim p) path v).2).length ≤ 1) ∧
    (∀ (root : Value) (p : PrimSpec) (path : String) (v cv : Value)
       (c0 : Constraint),
       isMissing v = false →
       coerce p.ptype (sanitizeValue p v) = some cv →
       p.constraints.find? (fun c => !(constraintHolds c cv)) = some c0 →
       (validateField root (.prim p) path v).2 =
         [(path, descr (constraintCode c0))]) := by
  constructor
  · intro root p path v
    rw [validateField]
    unfold validatePrim
    cases hm : isMissing v with
    | true =>
      simp only [hm]
      cases p.required <;> simp
    | false =>
      simp only [hm, Bool.false_eq_true, if_false]
      cases hc : coerce p.ptype (sanitizeValue p v) with
      | none => simp
      | some cv =>
        cases hf : p.constraints.find? (fun c => !(constraintHolds c cv)) with
        | some c => simp [hf]
        | none =>
          simp only [hf]
          cases p.customVal with
          | none => simp
          | some g => cases hg : g cv root <;> simp [hg]
  · intro root p path v cv c0 hm hc hf
    rw [validateField]
    unfold validatePrim
    simp only [hm, Bool.false_eq_true, if_false, hc, hf]

theorem enumFrom_map_general {α β : Type} (l : List α) (f : α → β) (k : Nat) :
    (l.map f).enumFrom k = (l.enumFrom k).map (fun it => (it.1, f it.2)) := by
  induction l generalizing k with
  | nil => rfl
  | cons x xs ih => simp [List.enumFrom_cons, ih]

theorem enumFrom_attach_flatMap {α : Type} {β : Type} (l : List α) (k : Nat)
    (g : Nat → α → List β) :
    ((l.attach.enumFrom k).flatMap (fun it => g it.1 it.2.1)) =
      ((l.enumFrom k).flatMap (fun it => g it.1 it.2)) := by
  induction l generalizing k with
  | nil => rfl
  | cons x xs ih =>
    rw [List.attach_cons, List.enumFrom_cons, List.enumFrom_cons,
      List.flatMap_cons, List.flatMap_cons]
    congr 1
    rw [enumFrom_map_general, List.flatMap_map]
    exact ih (k + 1)

/-- C3: a union field tries its alternatives in `types` order: if some
alternative validates with no error, the union's sanitized value is the
first such alternative's sanitized value and no error is reported; if no
alternative succeeds, exactly one error with code `union` is reported on
the field's own path. -/
theorem union_first_match :
    (∀ (root : Value) (req : Bool) (ts : List FieldSchema) (path : String)
       (v : Value) (r0 : Value × List (String × ErrorDescriptor)),
       isMissing v = false →
       (ts.map (fun t => validateField root t path v)).find?
           (fun r => r.2.isEmpty) = some r0 →
       validateField root (.union req ts) path v = (r0.1, [])) ∧
    (∀ (root : Value) (req : Bool) (ts : List FieldSchema) (path : String)
       (v : Value),
       isMissing v = false →
       (ts.map (fun t => validateField root t path v)).find?
           (fun r => r.2.isEmpty) = none →
       validateField root (.union req ts) path v =
         (v, [(path, descr "union")])) := by
  constructor
  · intro root req ts path v r0 hm hfind
    rw [validateField]
    simp only [hm, Bool.false_eq_true, if_false]
    rw [List.attach_map_val ts (fun t => validateField root t path v), hfind]
  · intro root req ts path v hm hfind
    rw [validateField]
    simp only [hm, Bool.false_eq_true, if_false]
    rw [List.attach_map_val ts (fun t => validateField root t path v), hfind]

/-- C4: a tuple field whose input sequence's length differs from
`tupleSchemas.length` reports exactly one `tupleLength` error at the
tuple's own path and produces no element-level errors; when the lengths
match, each position is validated against its corresponding schema at path
`field.<index>`. -/
theorem tuple_length_semantics :
    (∀ (root : Value) (req : Bool) (ss : List FieldSchema) (path : String)
       (xs : List Value),
       xs.length ≠ ss.length →
       validateField root (.tuple req ss) path (.vArr xs) =
         (.vArr xs, [(path, descr "tupleLength")])) ∧
    (∀ (root : Value) (req : Bool) (ss : List FieldSchema) (path : String)
       (xs : List Value),
       xs.length = ss.length →
       (validateField root (.tuple req ss) path (.vArr xs)).2 =
         ss.enum.flatMap (fun it =>
           (validateField root it.2 (path ++ "." ++ toString it.1)
             (xs.getD it.1 .vAbsent)).2)) := by
  constructor
  · intro root req ss path xs hl
    rw [validateField]
    simp only [isMissing, Bool.false_eq_true, if_false, hl]
  · intro root req ss path xs hl
    rw [validateField]
    simp only [isMissing, Bool.false_eq_true, if_false, hl, eq_self_iff_true,
      if_true]
    rw [List.flatMap_map]
    show ((ss.attach.enumFrom 0).flatMap (fun it =>
      (validateField root it.2.1 (path ++ "." ++ toString it.1)
        (xs.getD it.1 .vAbsent)).2)) = _
    rw [enumFrom_attach_flatMap ss 0 (fun i a =>
      (validateField root a (path ++ "." ++ toString i) (xs.getD i .vAbsent)).2)]
    rfl

/-- C5: a record field whose entries do not all validate against the value
schema reports exactly one error with code `record` at the record field's
own path (no per-key error entries); whether or not entries fail, the
sanitized value keeps every key of the input mapping. -/
theorem record_single_error_keys_preserved :
    (∀ (root : Value) (req : Bool) (vs : FieldSchema) (path : String)
       (kvs : List (String × Value)),
       kvs.all (fun kx =>
         ((validateField root vs (path ++ "." ++ kx.1) kx.2).2).isEmpty) = false →
       validateField root (.record req vs) path (.vObj kvs) =
         (.vObj (kvs.map (fun kx =>
            (kx.1, (validateField root vs (path ++ "." ++ kx.1) kx.2).1))),
          [(path, descr "record")])) ∧
    (∀ (root : Value) (req : Bool) (vs : FieldSchema) (path : String)
       (kvs : List (String × Value)),
       kvs.all (fun kx =>
         ((validateField root vs (path ++ "." ++ kx.1) kx.2).2).isEmpty) = true →
       (validateField root (.record req vs) path (.vObj kvs)).2 = []) ∧
    (∀ (root : Value) (req : Bool) (vs : FieldSchema) (path : String)
       (kvs : List (String × Value)),
       (objEntries ((validateField root (.record req vs) path (.vObj kvs)).1)).map
           Prod.fst = kvs.map Prod.fst) := by
  refine ⟨?_, ?_, ?_⟩
  · intro root req vs path kvs hfail
    rw [validateField]
    simp only [isMissing, Bool.false_eq_true, if_false]
    rw [list_all_map]
    simp only [hfail, if_false, List.map_map]
    rfl
  · intro root req vs path kvs hok
    rw [validateField]
    simp only [isMissing, Bool.false_eq_true, if_false]
    rw [list_all_map]
    simp only [hok, if_true]
  · intro root req vs path kvs
    rw [validateField]
    simp only [isMissing, Bool.false_eq_true, if_false]
    simp [objEntries, List.map_map, Function.comp]

/-- The paths at which a FieldSchema (as declared, before seeing any data)
carries `required: true` — the claim\'s "paths whose FieldSchema declares
required: true".  Recursion goes through the statically-pathed composites
(object fields and tuple positions); array, record and union children have
data-dependent paths and declare none. -/
def declaredRequiredPaths (path : String) : FieldSchema → List String
  | .prim p => if p.required then [path] else []
  | .object r fields =>
    (if r then [path] else []) ++
      fields.attach.flatMap
        (fun nf => declaredRequiredPaths (path ++ "." ++ nf.1.1) nf.1.2)
  | .array r _ => if r then [path] else []
  | .union r _ => if r then [path] else []
  | .tuple r ss =>
    (if r then [path] else []) ++
      ss.attach.enum.flatMap
        (fun it => declaredRequiredPaths (path ++ "." ++ toString it.1) it.2.1)
  | .record r _ => if r then [path] else []
termination_by f => sizeOf f
decreasing_by
  all_goals simp_wf
  · have h1 := List.sizeOf_lt_of_mem nf.2
    have h2 : sizeOf nf.1.2 < sizeOf nf.1 := by
      obtain ⟨a, b⟩ := nf.1
      simp +arith
    omega
  · have h1 := List.sizeOf_lt_of_mem it.2.2
    omega

/-- All declared required paths of a schema. -/
def schemaRequiredPaths (s : Schema) : List String :=
  s.flatMap (fun nf => declaredRequiredPaths nf.1 nf.2)

/-- A nested schema used to test the empty-record claim: a required object
`address` containing a required string `zip` (as in the demo schemas). -/
def zipReqField : FieldSchema :=
  .prim ⟨.pstring, true, false, false, false, none, [], none⟩

def nestedRequiredSchema : Schema :=
  [("address", .object true [("zip", zipReqField)])]

/-- C7 counterexample: `address.zip` is a path whose FieldSchema declares
`required: true`, but validating the empty record puts the single
`required` error at `address` only — the absent required object
short-circuits at its own required check and never recurses, so the claim
"an error at exactly those paths whose FieldSchema declares required:
true" fails on nested schemas. -/
theorem validate_empty_required_counterexample :
    "address.zip" ∈ schemaRequiredPaths nestedRequiredSchema ∧
    (validate nestedRequiredSchema (.vObj [])).errors =
      [("address", descr "required")] ∧
    ((validate nestedRequiredSchema (.vObj [])).errors.lookup "address.zip" =
      none) := by
  refine ⟨?_, ?_, ?_⟩
  · simp [schemaRequiredPaths, nestedRequiredSchema, declaredRequiredPaths,
      zipReqField]
  · simp [validate, nestedRequiredSchema, validateField, getField, objEntries,
      isMissing, reqResult, zipReqField]
  · rw [show (validate nestedRequiredSchema (.vObj [])).errors =
        [("address", descr "required")] from by
      simp [validate, nestedRequiredSchema, validateField, getField,
        objEntries, isMissing, reqResult, zipReqField]]
    rw [List.lookup]
    decide

theorem validate_empty_errors_list (s : Schema) :
    (validate s (.vObj [])).errors =
      s.filterMap (fun nf =>
        if requiredOf nf.2 then some (nf.1, descr "required") else none) := by
  show (s.map (fun nf =>
      (nf.1, validateField (.vObj []) nf.2 nf.1
        (getField (.vObj []) nf.1)))).flatMap (fun nr => nr.2.2) = _
  induction s with
  | nil => rfl
  | cons nf rest ih =>
    rw [List.map_cons, List.flatMap_cons, List.filterMap_cons,
      validateField_missing (.vObj []) nf.2 nf.1 (getField (.vObj []) nf.1) rfl,
      ih]
    cases hr : requiredOf nf.2 <;> simp [hr]

/-- C7 (amended): validating the empty record produces a `required` error
at exactly those top-level paths whose FieldSchema declares
`required: true`, in declaration order — an absent required composite
reports at its own path and does not recurse into nested declared paths —
and for a non-required field the absent value stops validation with the
absent value as its sanitized value. -/
theorem validate_empty_required_toplevel :
    (∀ s : Schema, (validate s (.vObj [])).errors =
       s.filterMap (fun nf =>
         if requiredOf nf.2 then some (nf.1, descr "required") else none)) ∧
    (∀ (root : Value) (f : FieldSchema) (path : String),
       requiredOf f = false →
       validateField root f path .vAbsent = (.vAbsent, [])) := by
  refine ⟨validate_empty_errors_list, ?_⟩
  intro root f path hr
  rw [validateField_missing root f path .vAbsent rfl, hr]
  simp

theorem dropWhile_dropWhile {α : Type} (q : α → Bool) (l : List α) :
    (l.dropWhile q).dropWhile q = l.dropWhile q := by
  induction l with
  | nil => rfl
  | cons c cs ih =>
    cases h : q c
    · simp [List.dropWhile_cons, h]
    · simp [List.dropWhile_cons, h, ih]

theorem trimRight_trimRight (l : List Nat) :
    trimRight (trimRight l) = trimRight l := by
  induction l with
  | nil => rfl
  | cons c cs ih =>
    rw [trimRight]
    cases hr : trimRight cs with
    | nil =>
      simp only [hr]
      cases hw : isWsCode c
      · simp [trimRight, hw]
      · simp [trimRight, hw]
    | cons r rs =>
      simp only [hr]
      have h2 := ih
      rw [hr] at h2
      rw [trimRight, h2]

theorem length_dropWhile_le {α : Type} (q : α → Bool) (l : List α) :
    (l.dropWhile q).length ≤ l.length := by
  induction l with
  | nil => simp
  | cons c cs ih =>
    cases h : q c
    · simp [List.dropWhile_cons, h]
    · simp [List.dropWhile_cons, h]
      omega

theorem dropWhile_trimRight (l : List Nat) (h : l.dropWhile isWsCode = l) :
    (trimRight l).dropWhile isWsCode = trimRight l := by
  cases l with
  | nil => rfl
  | cons c cs =>
    have hc : isWsCode c = false := by
      cases hw : isWsCode c
      · rfl
      · exfalso
        rw [List.dropWhile_cons, hw] at h
        simp only [if_true] at h
        have hlen := congrArg List.length h
        have hle := length_dropWhile_le isWsCode cs
        simp at hlen
        omega
    rw [trimRight]
    cases hr : trimRight cs with
    | nil =>
      rw [hc]
      simp [List.dropWhile_cons, hc]
    | cons r rs => simp [List.dropWhile_cons, hc]

theorem trimCodes_idem (s : List Nat) : trimCodes (trimCodes s) = trimCodes s := by
  unfold trimCodes
  rw [dropWhile_trimRight _ (dropWhile_dropWhile _ _), trimRight_trimRight]

theorem isWsCode_toLowerCode (c : Nat) :
    isWsCode (toLowerCode c) = isWsCode c := by
  unfold toLowerCode
  split
  · rename_i h
    have h1 : isWsCode (c + 32) = false := by simp [isWsCode]; omega
    have h2 : isWsCode c = false := by simp [isWsCode]; omega
    rw [h1, h2]
  · rfl

theorem isWsCode_toUpperCode (c : Nat) :
    isWsCode (toUpperCode c) = isWsCode c := by
  unfold toUpperCode
  split
  · rename_i h
    have h1 : isWsCode (c - 32) = false := by simp [isWsCode]; omega
    have h2 : isWsCode c = false := by simp [isWsCode]; omega
    rw [h1, h2]
  · rfl

theorem toLowerCode_idem (c : Nat) :
    toLowerCode (toLowerCode c) = toLowerCode c := by
  unfold toLowerCode
  split
  · rename_i h
    rw [if_neg (by omega)]
  · rfl

theorem toUpperCode_idem (c : Nat) :
    toUpperCode (toUpperCode c) = toUpperCode c := by
  unfold toUpperCode
  split
  · rename_i h
    rw [if_neg (by omega)]
  · rfl

theorem map_toLowerCode_idem (s : List Nat) :
    (s.map toLowerCode).map toLowerCode = s.map toLowerCode := by
  induction s with
  | nil => rfl
  | cons c cs ih => simp [toLowerCode_idem, ih]

theorem map_toUpperCode_idem (s : List Nat) :
    (s.map toUpperCode).map toUpperCode = s.map toUpperCode := by
  induction s with
  | nil => rfl
  | cons c cs ih => simp [toUpperCode_idem, ih]

theorem dropWhile_map_ws (g : Nat → Nat)
    (hg : ∀ c, isWsCode (g c) = isWsCode c) (l : List Nat) :
    (l.map g).dropWhile isWsCode = (l.dropWhile isWsCode).map g := by
  induction l with
  | nil => rfl
  | cons c cs ih =>
    rw [List.map_cons, List.dropWhile_cons, List.dropWhile_cons, hg]
    cases hw : isWsCode c
    · simp
    · simp [ih]

theorem trimRight_map_ws (g : Nat → Nat)
    (hg : ∀ c, isWsCode (g c) = isWsCode c) (l : List Nat) :
    trimRight (l.map g) = (trimRight l).map g := by
  induction l with
  | nil => rfl
  | cons c cs ih =>
    rw [List.map_cons, trimRight, trimRight, ih]
    cases hr : trimRight cs with
    | nil =>
      simp only [hr, List.map_nil]
      rw [hg]
      cases hw : isWsCode c <;> simp
    | cons r rs => simp only [hr, List.map_cons]

theorem trimCodes_map_ws (g : Nat → Nat)
    (hg : ∀ c, isWsCode (g c) = isWsCode c) (s : List Nat) :
    trimCodes (s.map g) = (trimCodes s).map g := by
  unfold trimCodes
  rw [dropWhile_map_ws g hg, trimRight_map_ws g hg]

theorem sanitizeCodes_idem (t l u : Bool) (s : List Nat) :
    sanitizeCodes t l u (sanitizeCodes t l u s) = sanitizeCodes t l u s := by
  unfold sanitizeCodes
  cases t <;> cases l <;> cases u <;> simp only [if_true, if_false,
    Bool.false_eq_true, Bool.true_eq_false, ite_true, ite_false]
  · exact map_toUpperCode_idem s
  · exact map_toLowerCode_idem s
  · exact map_toLowerCode_idem s
  · exact trimCodes_idem s
  · rw [trimCodes_map_ws toUpperCode isWsCode_toUpperCode, trimCodes_idem]
    exact map_toUpperCode_idem (trimCodes s)
  · rw [trimCodes_map_ws toLowerCode isWsCode_toLowerCode, trimCodes_idem]
    exact map_toLowerCode_idem (trimCodes s)
  · rw [trimCodes_map_ws toLowerCode isWsCode_toLowerCode, trimCodes_idem]
    exact map_toLowerCode_idem (trimCodes s)

theorem sanitizeValue_str (p : PrimSpec) (hp : p.sanitizeFn = none)
    (s : List Nat) :
    sanitizeValue p (.vStr s) =
      .vStr (sanitizeCodes p.trim p.lowercase p.uppercase s) := by
  unfold sanitizeValue applyCustomStage applyCaseStage applyTrimStage
    sanitizeCodes
  rw [hp]
  cases p.trim <;> cases p.lowercase <;> cases p.uppercase <;>
    simp [mapStrVal]

theorem sanitizeValue_nonstr (p : PrimSpec) (hp : p.sanitizeFn = none)
    (v : Value) (hv : isStrVal v = false) : sanitizeValue p v = v := by
  unfold sanitizeValue applyCustomStage applyCaseStage applyTrimStage
  rw [hp]
  cases v <;> simp_all [isStrVal, mapStrVal, ite_self]

/-- C8: the sanitization function composed of the trim and the
lowercase/uppercase transforms is idempotent, both on raw strings (code
unit lists) and at the engine level for any primitive field without a
custom sanitize transform. -/
theorem sanitize_trim_case_idempotent :
    (∀ (t l u : Bool) (s : List Nat),
       sanitizeCodes t l u (sanitizeCodes t l u s) = sanitizeCodes t l u s) ∧
    (∀ p : PrimSpec, p.sanitizeFn = none → ∀ v : Value,
       sanitizeValue p (sanitizeValue p v) = sanitizeValue p v) := by
  refine ⟨sanitizeCodes_idem, ?_⟩
  intro p hp v
  cases hs : isStrVal v
  · rw [sanitizeValue_nonstr p hp v hs, sanitizeValue_nonstr p hp v hs]
  · cases v with
    | vStr s =>
      rw [sanitizeValue_str p hp, sanitizeValue_str p hp, sanitizeCodes_idem]
    | vAbsent => simp [isStrVal] at hs
    | vNull => simp [isStrVal] at hs
    | vNum n => simp [isStrVal] at hs
    | vBool b => simp [isStrVal] at hs
    | vArr xs => simp [isStrVal] at hs
    | vObj kvs => simp [isStrVal] at hs

/-- JavaScript optional-chaining property access `data?.key`: `undefined`
when `data` is `null`/`undefined` or has no such property (or is not an
object at all). -/
def getOpt (data : Value) (key : String) : Value :=
  match data with
  | .vObj kvs => (kvs.lookup key).getD .vAbsent
  | _ => .vAbsent

/-- The `confirmPassword` field's `customValidator` from `App.tsx`:
`(value, data) => value === data?.password ? undefined : "Passwords do not
match."`.  Strict equality `===` is modelled as structural equality on
`Value`, which agrees with it on every primitive value. -/
def confirmPasswordValidator (value : Value) (data : Value) : Option String :=
  if value = getOpt data "password" then none else some "Passwords do not match."

/-- The `hobbies` field's custom `sanitize` from `Rhfrom.tsx`:
`value => typeof value === 'string' ? value.split(',').map(item =>
item.trim()) : value`. -/
def hobbiesSanitize (value : Value) : Value :=
  match value with
  | .vStr s => .vArr ((splitOnComma s).map (fun seg => .vStr (trimCodes seg)))
  | v => v


/-- C9: the `confirmPassword` customValidator is a pure two-argument
function returning `undefined` exactly when the candidate value strictly
equals `data?.password` (the record's password field, `undefined` for a
null or undefined record via optional chaining), and the string
"Passwords do not match." in every other case. -/
theorem confirmPassword_validator_spec (value data : Value) :
    (confirmPasswordValidator value data = none ↔
      value = getOpt data "password") ∧
    (confirmPasswordValidator value data = some "Passwords do not match." ↔
      value ≠ getOpt data "password") := by
  unfold confirmPasswordValidator
  by_cases h : value = getOpt data "password" <;> simp [h]

/-- C10: the hobbies custom sanitize returns every non-string input
unchanged, maps a string to the array of its comma-separated segments with
each segment trimmed, and is idempotent (its output on a string is an
array, which it leaves unchanged). -/
theorem hobbies_sanitize_spec :
    (∀ v : Value, isStrVal v = false → hobbiesSanitize v = v) ∧
    (∀ s : List Nat, hobbiesSanitize (.vStr s) =
      .vArr ((splitOnComma s).map (fun seg => .vStr (trimCodes seg)))) ∧
    (∀ v : Value, hobbiesSanitize (hobbiesSanitize v) = hobbiesSanitize v) := by
  refine ⟨?_, fun s => rfl, ?_⟩
  · intro v hv
    cases v <;> first | rfl | simp [isStrVal] at hv
  · intro v
    cases v <;> rfl

/-- A witness input for the hobbies sanitize: a number is left unchanged,
and "a, b" becomes the array of the trimmed segments "a" and "b". -/
theorem hobbies_sanitize_spec_witness :
    isStrVal (.vNum 7) = false ∧ hobbiesSanitize (.vNum 7) = .vNum 7 ∧
    hobbiesSanitize (.vStr [97, 44, 32, 98]) =
      .vArr [.vStr [97], .vStr [98]] :=
  ⟨rfl, hobbies_sanitize_spec.1 (.vNum 7) rfl, by
    rw [hobbies_sanitize_spec.2.1 [97, 44, 32, 98]]
    decide⟩

/-- Union alternative: an optional bare number field. -/
def numAltField : FieldSchema :=
  .prim ⟨.pnumber, false, false, false, false, none, [], none⟩

/-- Union alternative: an optional bare string field. -/
def strAltField : FieldSchema :=
  .prim ⟨.pstring, false, false, false, false, none, [], none⟩

/-- A string field declaring, in order, `minLength 5` and `maxLength 1`. -/
def fullNameSpec : PrimSpec :=
  ⟨.pstring, true, false, false, false, none, [.minLength 5, .maxLength 1], none⟩

/-- A witness for the first-failing-constraint rule: "abc" violates both
declared constraints, and the single reported error carries the code of
the first one in declaration order. -/
theorem prim_single_error_first_failing_constraint_witness :
    constraintHolds (.minLength 5) (.vStr [97, 98, 99]) = false ∧
    constraintHolds (.maxLength 1) (.vStr [97, 98, 99]) = false ∧
    (validateField (.vObj []) (.prim fullNameSpec) "fullName"
      (.vStr [97, 98, 99])).2 = [("fullName", descr "minLength")] :=
  ⟨rfl, rfl,
    prim_single_error_first_failing_constraint.2 (.vObj []) fullNameSpec
      "fullName" (.vStr [97, 98, 99]) (.vStr [97, 98, 99]) (.minLength 5)
      rfl rfl rfl⟩

/-- A witness for union first-match: with alternatives [number, string] and
raw input "42", the sanitized value is the number 42, not a string. -/
theorem union_first_match_witness :
    validateField (.vObj []) (.union false [numAltField, strAltField])
      "unionField" (.vStr [52, 50]) = (.vNum 42, []) :=
  union_first_match.1 (.vObj []) false [numAltField, strAltField]
    "unionField" (.vStr [52, 50]) (.vNum 42, []) rfl (by
      simp [numAltField, strAltField, validateField, validatePrim, isMissing,
        sanitizeValue, applyTrimStage, applyCaseStage, applyCustomStage,
        coerce, parseNumCodes, digitsVal])

/-- A witness for tuple length mismatch: two declared schemas against a
three-element input give exactly one `tupleLength` error at the tuple's
own path. -/
theorem tuple_length_semantics_witness :
    validateField (.vObj []) (.tuple true [strAltField, numAltField])
      "tupleField" (.vArr [.vStr [97], .vNum 2, .vNum 3]) =
      (.vArr [.vStr [97], .vNum 2, .vNum 3],
       [("tupleField", descr "tupleLength")]) :=
  tuple_length_semantics.1 (.vObj []) true [strAltField, numAltField]
    "tupleField" [.vStr [97], .vNum 2, .vNum 3] (by decide)

/-- A required bare number field, as a record's value schema. -/
def numReqField : FieldSchema :=
  .prim ⟨.pnumber, true, false, false, false, none, [], none⟩

/-- A witness for the record resolver: `{a: 1, b: "x"}` against a number
value schema yields one `record` error at the field's own path while the
sanitized value keeps both keys. -/
theorem record_single_error_witness :
    validateField (.vObj []) (.record true numReqField) "recordField"
      (.vObj [("a", .vNum 1), ("b", .vStr [120])]) =
      (.vObj [("a", .vNum 1), ("b", .vStr [120])],
       [("recordField", descr "record")]) := by
  rw [record_single_error_keys_preserved.1 (.vObj []) true numReqField
    "recordField" [("a", .vNum 1), ("b", .vStr [120])] (by
      simp [numReqField, validateField, validatePrim, isMissing, sanitizeValue,
        applyTrimStage, applyCaseStage, applyCustomStage, coerce, parseNumCodes,
        digitsVal])]
  simp [numReqField, validateField, validatePrim, isMissing, sanitizeValue,
    applyTrimStage, applyCaseStage, applyCustomStage, coerce, parseNumCodes,
    digitsVal]

/-- An email-like field: trim, lowercase, and a minLength constraint. -/
def emailSpec : PrimSpec :=
  ⟨.pstring, true, true, true, false, none, [.minLength 10], none⟩

/-- A witness that sanitization applies even to invalid values: " AB "
fails the minLength constraint, yet its sanitized echo "ab" (trimmed then
lowercased) is returned. -/
theorem sanitized_even_on_error_witness :
    (validateField (.vObj []) (.prim emailSpec) "email"
      (.vStr [32, 65, 66, 32])).1 = .vStr [97, 98] ∧
    (validateField (.vObj []) (.prim emailSpec) "email"
      (.vStr [32, 65, 66, 32])).2 = [("email", descr "minLength")] := by
  constructor
  · rw [sanitized_even_on_error.1 (.vObj []) emailSpec "email"
      (.vStr [32, 65, 66, 32]) rfl]
    decide
  · simp [emailSpec, validateField, validatePrim, isMissing, sanitizeValue,
      applyTrimStage, applyCaseStage, applyCustomStage, mapStrVal, coerce,
      trimCodes, trimRight, isWsCode, toLowerCode, constraintHolds,
      constraintCode]

/-- The hobbies field's shape: a non-required array of strings. -/
def hobbiesLikeField : FieldSchema := .array false strAltField

/-- A witness that a non-required absent field stops validation with the
absent value as its sanitized value. -/
theorem validate_empty_required_toplevel_witness :
    validateField (.vObj []) hobbiesLikeField "hobbies" .vAbsent =
      (.vAbsent, []) :=
  validate_empty_required_toplevel.2 (.vObj []) hobbiesLikeField "hobbies" rfl

/-- A witness for sanitization idempotence: re-sanitizing the already
trimmed and lowercased " AB " changes nothing. -/
theorem sanitize_trim_case_idempotent_witness :
    emailSpec.sanitizeFn = none ∧
    sanitizeValue emailSpec
        (sanitizeValue emailSpec (.vStr [32, 65, 66, 32])) =
      sanitizeValue emailSpec (.vStr [32, 65, 66, 32]) :=
  ⟨rfl, sanitize_trim_case_idempotent.2 emailSpec rfl (.vStr [32, 65, 66, 32])⟩

end ForgeForm
